import Mathlib

/-!
Verification development for the broken-page crawler
(`app/utils/urlCrawler.ts` and the scan API route).

The TypeScript source is shallowly embedded: URL strings are `String`
(manipulated as `List Char`), the WHATWG `new URL` parser used by the
source is modelled by `parseUrl`, network effects are modelled by an
explicit function from URL strings to outcomes, and every function of the
source that the claims mention is translated to a total Lean function.
-/

/-! ### Character and list-of-character utilities

These model the JavaScript string primitives that the source relies on
(`toLowerCase`, `split`, `indexOf`-style scanning, array `sort`).
All string scanning is done on `List Char` (Lean code points; the source
compares UTF-16 code units, which agrees on the basic multilingual plane).
-/

/-- Lowercase one character, ASCII-only, mirroring what
`String.prototype.toLowerCase` does on the ASCII range (the only range
exercised by URL schemes and the hostnames this code base handles). -/
def lowerChar (c : Char) : Char :=
  if 65 ≤ c.toNat ∧ c.toNat ≤ 90 then Char.ofNat (c.toNat + 32) else c

/-- Lowercase a character list, modelling `toLowerCase` on ASCII data. -/
def lowerL (l : List Char) : List Char := l.map lowerChar

theorem lowerChar_toNat_of_upper {c : Char} (h1 : 65 ≤ c.toNat) (h2 : c.toNat ≤ 90) :
    (lowerChar c).toNat = c.toNat + 32 := by
  have hval : (c.toNat + 32).isValidChar := by
    left
    omega
  simp only [lowerChar, if_pos (And.intro h1 h2)]
  rcases c with ⟨v, hv⟩
  simp only [Char.ofNat, dif_pos hval]
  rfl

theorem lowerChar_eq_self {c : Char} (h : ¬ (65 ≤ c.toNat ∧ c.toNat ≤ 90)) :
    lowerChar c = c := by
  simp [lowerChar, h]

theorem lowerChar_idem (c : Char) : lowerChar (lowerChar c) = lowerChar c := by
  by_cases h : 65 ≤ c.toNat ∧ c.toNat ≤ 90
  · have hv := lowerChar_toNat_of_upper h.1 h.2
    apply lowerChar_eq_self
    omega
  · rw [lowerChar_eq_self h, lowerChar_eq_self h]

theorem lowerL_idem (l : List Char) : lowerL (lowerL l) = lowerL l := by
  simp [lowerL, List.map_map, Function.comp, lowerChar_idem]

/-- A character that is not an ASCII letter is produced by `lowerChar`
only from itself. -/
theorem lowerChar_eq_iff_of_not_letter {d : Char}
    (hd1 : ¬ (65 ≤ d.toNat ∧ d.toNat ≤ 90)) (hd2 : ¬ (97 ≤ d.toNat ∧ d.toNat ≤ 122)) :
    ∀ c, lowerChar c = d ↔ c = d := by
  intro c
  constructor
  · intro h
    by_cases hc : 65 ≤ c.toNat ∧ c.toNat ≤ 90
    · exfalso
      have := lowerChar_toNat_of_upper hc.1 hc.2
      rw [h] at this
      omega
    · rwa [lowerChar_eq_self hc] at h
  · intro h
    subst h
    exact lowerChar_eq_self hd1

theorem mem_lowerL_iff_of_not_letter {d : Char}
    (hd1 : ¬ (65 ≤ d.toNat ∧ d.toNat ≤ 90)) (hd2 : ¬ (97 ≤ d.toNat ∧ d.toNat ≤ 122))
    (l : List Char) : d ∈ lowerL l ↔ d ∈ l := by
  simp only [lowerL, List.mem_map]
  constructor
  · rintro ⟨c, hc, hcd⟩
    rwa [(lowerChar_eq_iff_of_not_letter hd1 hd2 c).mp hcd] at hc
  · intro h
    exact ⟨d, h, (lowerChar_eq_iff_of_not_letter hd1 hd2 d).mpr rfl⟩

/-- Split at the first occurrence of `ch`: `some (before, after)` when `ch`
occurs, `none` otherwise.  Models `indexOf`-based splitting in the source. -/
def splitOnFirst (ch : Char) : List Char → Option (List Char × List Char)
  | [] => none
  | c :: cs =>
    if c = ch then some ([], cs)
    else
      match splitOnFirst ch cs with
      | none => none
      | some (a, b) => some (c :: a, b)

/-- Split at the last occurrence of `ch` (used for the `@` separating
userinfo from host, which WHATWG splits at the last `@`). -/
def splitOnLast (ch : Char) (l : List Char) : Option (List Char × List Char) :=
  match splitOnFirst ch l.reverse with
  | none => none
  | some (a, b) => some (b.reverse, a.reverse)

theorem takeWhile_eq_self_of (p : Char → Bool) (l : List Char)
    (h : ∀ c ∈ l, p c = true) : l.takeWhile p = l := by
  induction l with
  | nil => rfl
  | cons a t ih =>
    have ha := h a (List.mem_cons_self a t)
    simp [List.takeWhile_cons, ha, ih fun c hc => h c (List.mem_cons_of_mem a hc)]

theorem dropWhile_eq_nil_of (p : Char → Bool) (l : List Char)
    (h : ∀ c ∈ l, p c = true) : l.dropWhile p = [] := by
  induction l with
  | nil => rfl
  | cons a t ih =>
    have ha := h a (List.mem_cons_self a t)
    simp [List.dropWhile_cons, ha, ih fun c hc => h c (List.mem_cons_of_mem a hc)]

theorem takeWhile_middle (p : Char → Bool) (xs ys : List Char) (y : Char)
    (hxs : ∀ c ∈ xs, p c = true) (hy : p y = false) :
    (xs ++ y :: ys).takeWhile p = xs := by
  induction xs with
  | nil => simp [List.takeWhile_cons, hy]
  | cons a t ih =>
    have ha := hxs a (List.mem_cons_self a t)
    simp only [List.cons_append, List.takeWhile_cons, ha, if_true]
    rw [ih fun c hc => hxs c (List.mem_cons_of_mem a hc)]

theorem dropWhile_middle (p : Char → Bool) (xs ys : List Char) (y : Char)
    (hxs : ∀ c ∈ xs, p c = true) (hy : p y = false) :
    (xs ++ y :: ys).dropWhile p = y :: ys := by
  induction xs with
  | nil => simp [List.dropWhile_cons, hy]
  | cons a t ih =>
    have ha := hxs a (List.mem_cons_self a t)
    simp only [List.cons_append, List.dropWhile_cons, ha, if_true]
    exact ih fun c hc => hxs c (List.mem_cons_of_mem a hc)

theorem splitOnFirst_eq_none_of (ch : Char) : ∀ l, ch ∉ l → splitOnFirst ch l = none := by
  intro l
  induction l with
  | nil => intro _; rfl
  | cons c cs ih =>
    intro h
    have hc : ¬ c = ch := fun he => h (by simp [he])
    rw [splitOnFirst, if_neg hc, ih fun hm => h (List.mem_cons_of_mem c hm)]

theorem splitOnFirst_app (ch : Char) (a b : List Char) (h : ch ∉ a) :
    splitOnFirst ch (a ++ ch :: b) = some (a, b) := by
  induction a with
  | nil => simp [splitOnFirst]
  | cons c t ih =>
    have hc : ¬ c = ch := fun he => h (by simp [he])
    rw [List.cons_append, splitOnFirst, if_neg hc,
      ih fun hm => h (List.mem_cons_of_mem c hm)]

theorem splitOnLast_eq_none_of (ch : Char) (l : List Char) (h : ch ∉ l) :
    splitOnLast ch l = none := by
  unfold splitOnLast
  rw [splitOnFirst_eq_none_of]
  simpa using h

/-- Characterization of a successful `splitOnFirst`. -/
theorem splitOnFirst_eq_some (ch : Char) :
    ∀ l a b, splitOnFirst ch l = some (a, b) → l = a ++ ch :: b ∧ ch ∉ a := by
  intro l
  induction l with
  | nil => intro a b h; exact absurd h (by simp [splitOnFirst])
  | cons c cs ih =>
    intro a b h
    by_cases hc : c = ch
    · rw [splitOnFirst, if_pos hc] at h
      obtain ⟨ha, hb⟩ : ([] : List Char) = a ∧ cs = b := by
        simpa using h
      subst ha; subst hb; subst hc
      simp
    · rw [splitOnFirst, if_neg hc] at h
      rcases hrec : splitOnFirst ch cs with _ | ⟨x, y⟩
      · rw [hrec] at h; exact absurd h (by simp)
      · rw [hrec] at h
        obtain ⟨ha, hb⟩ : c :: x = a ∧ y = b := by simpa using h
        obtain ⟨hcs, hnx⟩ := ih x y hrec
        subst ha; subst hb
        constructor
        · rw [List.cons_append, hcs]
        · intro hm
          rcases List.mem_cons.mp hm with he | hm2
          · exact hc he.symm
          · exact hnx hm2

/-- Split at every occurrence of `ch`, modelling JavaScript
`String.prototype.split(ch)` (which yields empty pieces between adjacent
separators and at the ends). -/
def splitAll (ch : Char) : List Char → List (List Char)
  | [] => [[]]
  | c :: cs =>
    match splitAll ch cs with
    | [] => if c = ch then [[], []] else [[c]]
    | h :: t => if c = ch then [] :: h :: t else (c :: h) :: t

/-- Join pieces with a separator character, modelling `Array.prototype.join`
restricted to a one-character separator. -/
def joinWith (ch : Char) : List (List Char) → List Char
  | [] => []
  | [p] => p
  | p :: q :: rs => p ++ ch :: joinWith ch (q :: rs)

theorem splitAll_ne_nil (ch : Char) : ∀ l, splitAll ch l ≠ [] := by
  intro l
  induction l with
  | nil => simp [splitAll]
  | cons c cs ih =>
    rw [splitAll]
    rcases h : splitAll ch cs with _ | ⟨x, y⟩
    · by_cases hc : c = ch <;> simp [hc]
    · by_cases hc : c = ch <;> simp [hc]

theorem splitAll_singleton (ch : Char) (l : List Char) (h : ch ∉ l) :
    splitAll ch l = [l] := by
  induction l with
  | nil => rfl
  | cons c cs ih =>
    have hc : ¬ c = ch := fun he => h (by simp [he])
    rw [splitAll, ih fun hm => h (List.mem_cons_of_mem c hm)]
    simp [hc]

theorem splitAll_app (ch : Char) (a b : List Char) (h : ch ∉ a) :
    splitAll ch (a ++ ch :: b) = a :: splitAll ch b := by
  induction a with
  | nil =>
    rw [List.nil_append, splitAll]
    rcases hb : splitAll ch b with _ | ⟨x, y⟩
    · exact absurd hb (splitAll_ne_nil ch b)
    · simp
  | cons c t ih =>
    have hc : ¬ c = ch := fun he => h (by simp [he])
    rw [List.cons_append, splitAll, ih fun hm => h (List.mem_cons_of_mem c hm)]
    simp [hc]

/-- `splitAll` inverts `joinWith` when no piece contains the separator. -/
theorem splitAll_joinWith (ch : Char) :
    ∀ ps, ps ≠ [] → (∀ p ∈ ps, ch ∉ p) → splitAll ch (joinWith ch ps) = ps := by
  intro ps
  induction ps with
  | nil => intro h; exact absurd rfl h
  | cons p qs ih =>
    intro _ hmem
    rcases qs with _ | ⟨q, rs⟩
    · exact splitAll_singleton ch p (hmem p (List.mem_cons_self p []))
    · rw [joinWith, splitAll_app ch p _ (hmem p (List.mem_cons_self p _)),
        ih (by simp) fun r hr => hmem r (List.mem_cons_of_mem p hr)]

theorem splitAll_cons_eq (ch x : Char) (xs : List Char) (h : List Char)
    (t : List (List Char)) (hs : splitAll ch xs = h :: t) :
    splitAll ch (x :: xs) = if x = ch then [] :: h :: t else (x :: h) :: t := by
  rw [splitAll, hs]

/-- Every character of every piece of `splitAll` comes from the input. -/
theorem mem_of_mem_splitAll (ch : Char) :
    ∀ l p c, p ∈ splitAll ch l → c ∈ p → c ∈ l := by
  intro l
  induction l with
  | nil =>
    intro p c hp hc
    simp only [splitAll, List.mem_singleton] at hp
    subst hp
    exact absurd hc (List.not_mem_nil c)
  | cons x xs ih =>
    intro p c hp hc
    rcases hs : splitAll ch xs with _ | ⟨h, t⟩
    · exact absurd hs (splitAll_ne_nil ch xs)
    · rw [splitAll_cons_eq ch x xs h t hs] at hp
      by_cases hx : x = ch
      · rw [if_pos hx] at hp
        rcases List.mem_cons.mp hp with he | hp2
        · subst he; exact absurd hc (List.not_mem_nil c)
        · exact List.mem_cons_of_mem x (ih p c (hs ▸ hp2) hc)
      · rw [if_neg hx] at hp
        rcases List.mem_cons.mp hp with he | hp2
        · subst he
          rcases List.mem_cons.mp hc with he2 | hc2
          · exact he2 ▸ List.mem_cons_self x xs
          · exact List.mem_cons_of_mem x (ih h c (hs ▸ List.mem_cons_self h t) hc2)
        · exact List.mem_cons_of_mem x (ih p c (hs ▸ List.mem_cons_of_mem h hp2) hc)

/-- No piece of `splitAll ch l` contains `ch`. -/
theorem not_mem_of_mem_splitAll (ch : Char) :
    ∀ l p, p ∈ splitAll ch l → ch ∉ p := by
  intro l
  induction l with
  | nil =>
    intro p hp
    simp only [splitAll, List.mem_singleton] at hp
    subst hp
    exact List.not_mem_nil ch
  | cons x xs ih =>
    intro p hp
    rcases hs : splitAll ch xs with _ | ⟨h, t⟩
    · exact absurd hs (splitAll_ne_nil ch xs)
    · rw [splitAll_cons_eq ch x xs h t hs] at hp
      by_cases hx : x = ch
      · rw [if_pos hx] at hp
        rcases List.mem_cons.mp hp with he | hp2
        · subst he; exact List.not_mem_nil ch
        · exact ih p (hs ▸ hp2)
      · rw [if_neg hx] at hp
        rcases List.mem_cons.mp hp with he | hp2
        · subst he
          intro hm
          rcases List.mem_cons.mp hm with he2 | hm2
          · exact hx he2.symm
          · exact ih h (hs ▸ List.mem_cons_self h t) hm2
        · exact ih p (hs ▸ List.mem_cons_of_mem h hp2)

/-! ### Query parameters

`URLSearchParams` as far as the source uses it: parse the raw query into
key/value pairs (splitting on `&`, dropping empty pieces, splitting each
piece at its first `=`), serialize back as `k=v` joined by `&`, and sort
the pair array the way `Array.prototype.sort()` does with its default
comparator, i.e. by comparing the strings `k ++ "," ++ v`.  Percent/`+`
decoding is not modelled: the source feeds the serialized form straight
back into the dedup key, so the raw byte view is adequate. -/

/-- One query parameter: key and value, as character lists. -/
abbrev QEntry := List Char × List Char

/-- Parse a raw query string (no leading question mark) into entries,
mirroring the `URLSearchParams` constructor on undecoded input. -/
def parseQuery (raw : List Char) : List QEntry :=
  ((splitAll '&' raw).filter (fun p => !p.isEmpty)).map fun piece =>
    match splitOnFirst '=' piece with
    | none => (piece, [])
    | some (k, v) => (k, v)

/-- Serialize entries, mirroring `URLSearchParams.prototype.toString`
on undecoded input (`k=v` pieces joined by `&`). -/
def renderEntries (es : List QEntry) : List Char :=
  joinWith '&' (es.map fun e => e.1 ++ '=' :: e.2)

/-- Lexicographic comparison of character lists by code point, mirroring
the string `<`-comparison used by the default `Array.prototype.sort`
comparator. -/
def listLe : List Char → List Char → Bool
  | [], _ => true
  | _ :: _, [] => false
  | a :: as, b :: bs =>
    if a.toNat < b.toNat then true
    else if b.toNat < a.toNat then false
    else listLe as bs

/-- The string the default sort comparator sees for an entry `[k, v]` is
`String([k, v]) = k ++ "," ++ v`. -/
def entryKey (e : QEntry) : List Char := e.1 ++ ',' :: e.2

/-- Ordering used by `[...searchParams.entries()].sort()`. -/
def entryRel (a b : QEntry) : Prop := listLe (entryKey a) (entryKey b) = true

instance : DecidableRel entryRel := fun _ _ =>
  inferInstanceAs (Decidable (_ = true))

theorem listLe_total : ∀ a b : List Char, listLe a b = true ∨ listLe b a = true := by
  intro a
  induction a with
  | nil => intro b; left; rfl
  | cons x xs ih =>
    intro b
    rcases b with _ | ⟨y, ys⟩
    · right; rfl
    · rcases Nat.lt_trichotomy x.toNat y.toNat with h | h | h
      · left; simp [listLe, h]
      · have hne1 : ¬ x.toNat < y.toNat := by omega
        have hne2 : ¬ y.toNat < x.toNat := by omega
        rcases ih ys with hl | hr
        · left; simp [listLe, hne1, hne2, hl]
        · right; simp [listLe, hne1, hne2, hr]
      · right; simp [listLe, h]

theorem listLe_trans :
    ∀ a b c : List Char, listLe a b = true → listLe b c = true → listLe a c = true := by
  intro a
  induction a with
  | nil => intro b c _ _; rfl
  | cons x xs ih =>
    intro b c hab hbc
    rcases b with _ | ⟨y, ys⟩
    · rw [listLe] at hab
      exact absurd hab (by simp)
    · rcases c with _ | ⟨z, zs⟩
      · rw [listLe] at hbc
        exact absurd hbc (by simp)
      · rw [listLe] at hab hbc ⊢
        by_cases hxy : x.toNat < y.toNat
        · by_cases hyz : y.toNat < z.toNat
          · simp [show x.toNat < z.toNat by omega]
          · by_cases hzy : z.toNat < y.toNat
            · simp [hyz, hzy] at hbc
            · simp [show x.toNat < z.toNat by omega]
        · by_cases hyx : y.toNat < x.toNat
          · simp [hxy, hyx] at hab
          · have hxyeq : x.toNat = y.toNat := by omega
            by_cases hyz : y.toNat < z.toNat
            · simp [show x.toNat < z.toNat by omega]
            · by_cases hzy : z.toNat < y.toNat
              · simp [hyz, hzy] at hbc
              · have h1 : ¬ x.toNat < z.toNat := by omega
                have h2 : ¬ z.toNat < x.toNat := by omega
                simp only [h1, h2, if_false]
                simp only [hxy, hyx, if_false] at hab
                simp only [hyz, hzy, if_false] at hbc
                exact ih ys zs hab hbc

instance : IsTotal QEntry entryRel :=
  ⟨fun a b => listLe_total (entryKey a) (entryKey b)⟩

instance : IsTrans QEntry entryRel :=
  ⟨fun a b c => listLe_trans (entryKey a) (entryKey b) (entryKey c)⟩

/-- Sorting of the entry array, as done by
`new URLSearchParams([...searchParams.entries()].sort())` in the source.
`List.insertionSort` is a stable sort, as is the ECMAScript one. -/
def sortEntries (es : List QEntry) : List QEntry := es.insertionSort entryRel

theorem sortEntries_sorted (es : List QEntry) :
    List.Sorted entryRel (sortEntries es) :=
  List.sorted_insertionSort entryRel es

theorem sortEntries_perm (es : List QEntry) : List.Perm (sortEntries es) es :=
  List.perm_insertionSort entryRel es

theorem sortEntries_idem (es : List QEntry) :
    sortEntries (sortEntries es) = sortEntries es :=
  (sortEntries_sorted es).insertionSort_eq

/-- Well-formedness that `parseQuery` guarantees for each entry: the key
holds no separator and no equals sign, the value no separator. -/
def entryWf (e : QEntry) : Prop := '&' ∉ e.1 ∧ '=' ∉ e.1 ∧ '&' ∉ e.2

theorem splitOnFirst_none_imp (ch : Char) :
    ∀ l, splitOnFirst ch l = none → ch ∉ l := by
  intro l
  induction l with
  | nil => intro _; exact List.not_mem_nil ch
  | cons c cs ih =>
    intro h hm
    by_cases hc : c = ch
    · rw [splitOnFirst, if_pos hc] at h
      exact absurd h (by simp)
    · rw [splitOnFirst, if_neg hc] at h
      rcases hrec : splitOnFirst ch cs with _ | ⟨x, y⟩
      · rcases List.mem_cons.mp hm with he | hm2
        · exact hc he.symm
        · exact ih hrec hm2
      · rw [hrec] at h
        exact absurd h (by simp)

theorem parseQuery_wf (raw : List Char) : ∀ e ∈ parseQuery raw, entryWf e := by
  intro e he
  unfold parseQuery at he
  obtain ⟨piece, hpf, hpe⟩ := List.mem_map.mp he
  have hps : piece ∈ splitAll '&' raw := List.mem_of_mem_filter hpf
  have hamp : '&' ∉ piece := not_mem_of_mem_splitAll '&' raw piece hps
  rcases hsp : splitOnFirst '=' piece with _ | ⟨k, v⟩
  · rw [hsp] at hpe
    have heqn : '=' ∉ piece := splitOnFirst_none_imp '=' piece hsp
    rw [← hpe]
    exact ⟨hamp, heqn, List.not_mem_nil '&'⟩
  · rw [hsp] at hpe
    obtain ⟨hp, hk⟩ := splitOnFirst_eq_some '=' piece k v hsp
    rw [← hpe]
    refine ⟨fun hm => hamp ?_, hk, fun hm => hamp ?_⟩
    · rw [hp]; exact List.mem_append_left _ hm
    · rw [hp]; exact List.mem_append_right _ (List.mem_cons_of_mem _ hm)

theorem parseQuery_chars (raw : List Char) :
    ∀ e ∈ parseQuery raw, ∀ c, (c ∈ e.1 ∨ c ∈ e.2) → c ∈ raw := by
  intro e he c hc
  unfold parseQuery at he
  obtain ⟨piece, hpf, hpe⟩ := List.mem_map.mp he
  have hps : piece ∈ splitAll '&' raw := List.mem_of_mem_filter hpf
  have hsub : ∀ d, d ∈ piece → d ∈ raw := fun d hd =>
    mem_of_mem_splitAll '&' raw piece d hps hd
  rcases hsp : splitOnFirst '=' piece with _ | ⟨k, v⟩
  · rw [hsp] at hpe
    rw [← hpe] at hc
    rcases hc with h1 | h2
    · exact hsub c h1
    · exact absurd h2 (List.not_mem_nil c)
  · rw [hsp] at hpe
    obtain ⟨hp, _⟩ := splitOnFirst_eq_some '=' piece k v hsp
    rw [← hpe] at hc
    apply hsub
    rw [hp]
    rcases hc with h1 | h2
    · exact List.mem_append_left _ h1
    · exact List.mem_append_right _ (List.mem_cons_of_mem _ h2)

theorem mem_joinWith (ch : Char) :
    ∀ ps c, c ∈ joinWith ch ps → c = ch ∨ ∃ p ∈ ps, c ∈ p := by
  intro ps
  induction ps with
  | nil => intro c hc; exact absurd hc (List.not_mem_nil c)
  | cons p qs ih =>
    intro c hc
    rcases qs with _ | ⟨q, rs⟩
    · exact Or.inr ⟨p, List.mem_cons_self p [], hc⟩
    · rw [joinWith] at hc
      rcases List.mem_append.mp hc with h1 | h2
      · exact Or.inr ⟨p, List.mem_cons_self p _, h1⟩
      · rcases List.mem_cons.mp h2 with he | h3
        · exact Or.inl he
        · rcases ih c h3 with he | ⟨r, hr, hcr⟩
          · exact Or.inl he
          · exact Or.inr ⟨r, List.mem_cons_of_mem p hr, hcr⟩

theorem mem_renderEntries (es : List QEntry) (c : Char) (hc : c ∈ renderEntries es) :
    c = '&' ∨ c = '=' ∨ ∃ e ∈ es, c ∈ e.1 ∨ c ∈ e.2 := by
  unfold renderEntries at hc
  rcases mem_joinWith '&' _ c hc with he | ⟨piece, hps, hcp⟩
  · exact Or.inl he
  · obtain ⟨e, hes, hpe⟩ := List.mem_map.mp hps
    rw [← hpe] at hcp
    rcases List.mem_append.mp hcp with h1 | h2
    · exact Or.inr (Or.inr ⟨e, hes, Or.inl h1⟩)
    · rcases List.mem_cons.mp h2 with he2 | h3
      · exact Or.inr (Or.inl he2)
      · exact Or.inr (Or.inr ⟨e, hes, Or.inr h3⟩)

theorem renderEntries_ne_nil (es : List QEntry) (h : es ≠ []) :
    renderEntries es ≠ [] := by
  unfold renderEntries
  rcases es with _ | ⟨e, fs⟩
  · exact absurd rfl h
  · rcases fs with _ | ⟨f, gs⟩
    · simp [joinWith]
    · simp [joinWith]

/-- Parsing inverts serialization for well-formed entry lists: this is what
makes the sorted query string a stable dedup key. -/
theorem parseQuery_renderEntries (es : List QEntry) (hne : es ≠ [])
    (hwf : ∀ e ∈ es, entryWf e) : parseQuery (renderEntries es) = es := by
  unfold parseQuery renderEntries
  rw [splitAll_joinWith '&' (es.map fun e => e.1 ++ '=' :: e.2)
    (by simpa using hne)
    (by
      intro p hp
      obtain ⟨e, hes, hpe⟩ := List.mem_map.mp hp
      obtain ⟨h1, h2, h3⟩ := hwf e hes
      rw [← hpe]
      intro hm
      rcases List.mem_append.mp hm with ha | hb
      · exact h1 ha
      · rcases List.mem_cons.mp hb with he | hv
        · simp at he
        · exact h3 hv)]
  rw [List.filter_eq_self.mpr (by
    intro p hp
    obtain ⟨e, _, hpe⟩ := List.mem_map.mp hp
    rw [← hpe]
    simp)]
  rw [List.map_map]
  rw [List.map_congr_left (fun e hes => by
    obtain ⟨_, h2, _⟩ := hwf e hes
    show (match splitOnFirst '=' (e.1 ++ '=' :: e.2) with
      | none => (e.1 ++ '=' :: e.2, [])
      | some (k, v) => (k, v)) = e
    rw [splitOnFirst_app '=' e.1 e.2 h2])]
  exact List.map_id es

/-! ### The URL parser

Model of the `new URL(...)` constructor as the source uses it, for
absolute `scheme://...` URLs.  Component fields follow the WHATWG getter
names the source reads (`protocol`, `hostname`, `pathname`, `search`).
Scheme case folding happens at parse time as in WHATWG; host case folding
is deferred to the call sites (`normalizeUrl` lowercases explicitly, and
the `origin` serializer lowercases), which yields the same composite
behavior as the WHATWG parser storing the host lowercased.  Percent
decoding, IDNA, IPv6 literals, dot-segment removal and default-port
elision are outside the model; a string whose scheme is missing or
malformed, whose host is empty, or whose port holds a non-digit fails to
parse, as it does in the platform parser. -/

/-- Components of a parsed URL.  `protocol` includes the trailing colon,
`search` is empty or starts with a question mark, `hash` is empty or
starts with a hash sign, exactly like the WHATWG getters. -/
structure ParsedUrl where
  protocol : List Char
  userinfo : Option (List Char)
  hostname : List Char
  port : Option (List Char)
  pathname : List Char
  search : List Char
  hash : List Char
deriving Repr, DecidableEq

/-- Is the character an ASCII letter. -/
def isAlphaCh (c : Char) : Bool :=
  (65 ≤ c.toNat && c.toNat ≤ 90) || (97 ≤ c.toNat && c.toNat ≤ 122)

/-- Is the character an ASCII digit. -/
def isDigitCh (c : Char) : Bool := 48 ≤ c.toNat && c.toNat ≤ 57

/-- Is the character allowed in a scheme after the first position. -/
def isSchemeChar (c : Char) : Bool :=
  isAlphaCh c || isDigitCh c || c = '+' || c = '-' || c = '.'

/-- Scheme validity: nonempty, alphabetic first character, then
scheme characters. -/
def validScheme : List Char → Bool
  | [] => false
  | c :: cs => isAlphaCh c && cs.all isSchemeChar

/-- Does the character end the authority section. -/
def isAuthEnd (c : Char) : Bool := c = '/' || c = '?' || c = '#'

/-- Does the character end the path section. -/
def isPathEnd (c : Char) : Bool := c = '?' || c = '#'

/-- Port validity: absent, or digits only (the platform parser rejects a
non-numeric port). -/
def portOk : Option (List Char) → Bool
  | none => true
  | some pt => pt.all isDigitCh

/-- Split the authority section into userinfo (before the last `@`,
when present) and host/port. -/
def splitUserinfo (auth : List Char) : Option (List Char) × List Char :=
  match splitOnLast '@' auth with
  | none => (none, auth)
  | some (u, hp) => (some u, hp)

/-- Split host and port at the first colon of the host/port section. -/
def splitPort (hostport : List Char) : List Char × Option (List Char) :=
  match splitOnFirst ':' hostport with
  | none => (hostport, none)
  | some (h, pt) => (h, some pt)

/-- Split what follows the path into the `search` component (empty, or a
question mark followed by the nonempty raw query) and what remains for
the fragment. -/
def splitSearch (afterPath : List Char) : List Char × List Char :=
  match afterPath with
  | '?' :: qrest =>
    (if qrest.takeWhile (fun c => !(c = '#')) = [] then []
     else '?' :: qrest.takeWhile (fun c => !(c = '#')),
     qrest.dropWhile fun c => !(c = '#'))
  | other => ([], other)

/-- The `hash` component: whatever remains, when it starts with `#`. -/
def hashOf (afterQuery : List Char) : List Char :=
  match afterQuery with
  | '#' :: _ => afterQuery
  | _ => []

/-- Parse the hierarchical part (everything after `scheme://`) and build
the record; `rawScheme` is the already-validated scheme. -/
def parseHier (rawScheme rest : List Char) : Option ParsedUrl :=
  let auth := rest.takeWhile fun c => !isAuthEnd c
  let afterAuth := rest.dropWhile fun c => !isAuthEnd c
  let ui := (splitUserinfo auth).1
  let hostport := (splitUserinfo auth).2
  let host := (splitPort hostport).1
  let port := (splitPort hostport).2
  if host = [] then none
  else if !portOk port then none
  else
    let rawPath := afterAuth.takeWhile fun c => !isPathEnd c
    let afterPath := afterAuth.dropWhile fun c => !isPathEnd c
    some {
      protocol := lowerL rawScheme ++ [':']
      userinfo := ui
      hostname := host
      port := port
      pathname := if rawPath = [] then ['/'] else rawPath
      search := (splitSearch afterPath).1
      hash := hashOf (splitSearch afterPath).2 }

/-- Parser on character lists; see `parseUrl` for the string wrapper. -/
def parseUrlL (l : List Char) : Option ParsedUrl :=
  match splitOnFirst ':' l with
  | none => none
  | some (rawScheme, afterColon) =>
    if validScheme rawScheme then
      match afterColon with
      | c1 :: c2 :: rest =>
        if c1 = '/' ∧ c2 = '/' then parseHier rawScheme rest else none
      | _ => none
    else none

/-- Model of `new URL(s)`: `some` components, or `none` when the platform
parser would throw. -/
def parseUrl (s : String) : Option ParsedUrl := parseUrlL s.data

/-- Query entries of a parsed URL: what `new URLSearchParams(p.search)`
iterates (the constructor strips one leading question mark). -/
def searchEntries (p : ParsedUrl) : List QEntry :=
  match p.search with
  | [] => []
  | _ :: raw => parseQuery raw

/-- Dedup key construction from parsed components, mirroring the body of
`normalizeUrl` in `app/utils/urlCrawler.ts` (lines 16-42): protocol,
`//`, lowercased hostname, pathname kept as is, then — only when `search`
is truthy — a question mark and the sorted, re-serialized parameters.
Port, userinfo and fragment never appear. -/
def renderKey (p : ParsedUrl) : List Char :=
  let base := p.protocol ++ '/' :: '/' :: lowerL p.hostname ++ p.pathname
  if p.search = [] then base
  else base ++ '?' :: renderEntries (sortEntries (searchEntries p))

/-- The URL normalizer of the source: parse, rebuild the key from
protocol, lowercased hostname, pathname and sorted query; on parse
failure return the input unchanged. -/
def normalizeUrl (url : String) : String :=
  match parseUrl url with
  | none => url
  | some p => ⟨renderKey p⟩

/-! ### Invariants of parsed URLs and the parse/render round trip -/

theorem takeWhile_cons_inv (p : Char → Bool) :
    ∀ (l : List Char) (c : Char) (t : List Char),
      l.takeWhile p = c :: t → ∃ u, l = c :: u ∧ p c = true := by
  intro l
  induction l with
  | nil => intro c t h; exact absurd h (by simp)
  | cons x xs _ =>
    intro c t h
    by_cases hx : p x = true
    · rw [List.takeWhile_cons, if_pos hx] at h
      injection h with h1 _
      exact ⟨xs, by rw [h1], h1 ▸ hx⟩
    · rw [List.takeWhile_cons, if_neg hx] at h
      exact absurd h (by simp)

theorem dropWhile_cons_head (p : Char → Bool) :
    ∀ (l : List Char) (c : Char) (t : List Char), l.dropWhile p = c :: t → p c = false := by
  intro l
  induction l with
  | nil => intro c t h; exact absurd h (by simp)
  | cons x xs ih =>
    intro c t h
    by_cases hx : p x = true
    · rw [List.dropWhile_cons, if_pos hx] at h
      exact ih c t h
    · rw [List.dropWhile_cons, if_neg hx] at h
      injection h with h1 _
      rw [← h1]
      exact Bool.eq_false_iff.mpr hx

theorem splitOnLast_eq_some (ch : Char) (l u hp : List Char)
    (h : splitOnLast ch l = some (u, hp)) : l = u ++ ch :: hp ∧ ch ∉ hp := by
  unfold splitOnLast at h
  rcases hs : splitOnFirst ch l.reverse with _ | ⟨a, b⟩
  · rw [hs] at h; exact absurd h (by simp)
  · rw [hs] at h
    obtain ⟨hu, hhp⟩ : b.reverse = u ∧ a.reverse = hp := by simpa using h
    obtain ⟨hrev, hna⟩ := splitOnFirst_eq_some ch l.reverse a b hs
    constructor
    · have := congrArg List.reverse hrev
      rw [List.reverse_reverse] at this
      rw [this, List.reverse_append, List.reverse_cons, List.append_assoc]
      rw [hu, hhp]
      simp
    · rw [← hhp]
      intro hm
      exact hna (List.mem_reverse.mp hm)

theorem lowerChar_isAlpha {c : Char} (h : isAlphaCh c = true) :
    isAlphaCh (lowerChar c) = true := by
  simp only [isAlphaCh, Bool.or_eq_true, Bool.and_eq_true, decide_eq_true_eq] at h ⊢
  rcases h with h | h
  · right
    have := lowerChar_toNat_of_upper h.1 h.2
    omega
  · right
    have : lowerChar c = c := lowerChar_eq_self (by omega)
    rw [this]
    omega

theorem lowerChar_isSchemeChar {c : Char} (h : isSchemeChar c = true) :
    isSchemeChar (lowerChar c) = true := by
  by_cases hu : 65 ≤ c.toNat ∧ c.toNat ≤ 90
  · have halpha : isAlphaCh c = true := by
      simp only [isAlphaCh, Bool.or_eq_true, Bool.and_eq_true, decide_eq_true_eq]
      exact Or.inl hu
    simp only [isSchemeChar, Bool.or_eq_true]
    exact Or.inl (Or.inl (Or.inl (Or.inl (lowerChar_isAlpha halpha))))
  · rwa [lowerChar_eq_self hu]

theorem validScheme_lowerL {s : List Char} (h : validScheme s = true) :
    validScheme (lowerL s) = true := by
  rcases s with _ | ⟨c, cs⟩
  · exact absurd h (by simp [validScheme])
  · simp only [validScheme, Bool.and_eq_true, List.all_eq_true] at h
    show validScheme (lowerChar c :: lowerL cs) = true
    simp only [validScheme, Bool.and_eq_true, List.all_eq_true]
    constructor
    · exact lowerChar_isAlpha h.1
    · intro x hx
      obtain ⟨y, hy, hxy⟩ := List.mem_map.mp hx
      rw [← hxy]
      exact lowerChar_isSchemeChar (h.2 y hy)

theorem lowerL_ne_nil {l : List Char} (h : l ≠ []) : lowerL l ≠ [] := by
  rcases l with _ | ⟨c, cs⟩
  · exact absurd rfl h
  · show lowerChar c :: lowerL cs ≠ []
    simp

/-- Invariants every successfully parsed URL satisfies; everything the
round-trip argument needs. -/
structure GoodUrl (p : ParsedUrl) : Prop where
  proto : ∃ sb, p.protocol = sb ++ [':'] ∧ validScheme sb = true ∧ lowerL sb = sb
  host_ne : p.hostname ≠ []
  host_no : ∀ c ∈ p.hostname, isAuthEnd c = false ∧ c ≠ '@' ∧ c ≠ ':'
  path_head : ∃ t, p.pathname = '/' :: t
  path_no : ∀ c ∈ p.pathname, isPathEnd c = false
  search_shape : p.search = [] ∨ ∃ rq, p.search = '?' :: rq ∧ rq ≠ [] ∧ '#' ∉ rq

theorem splitOnLast_none_imp (ch : Char) (l : List Char)
    (h : splitOnLast ch l = none) : ch ∉ l := by
  unfold splitOnLast at h
  rcases hs : splitOnFirst ch l.reverse with _ | ⟨a, b⟩
  · intro hm
    exact splitOnFirst_none_imp ch l.reverse hs (List.mem_reverse.mpr hm)
  · rw [hs] at h
    exact absurd h (by simp)

theorem splitUserinfo_sub (auth : List Char) :
    ∀ c ∈ (splitUserinfo auth).2, c ∈ auth ∧ c ≠ '@' := by
  intro c hc
  unfold splitUserinfo at hc
  rcases hs : splitOnLast '@' auth with _ | ⟨u, hp2⟩
  · rw [hs] at hc
    refine ⟨hc, fun he => ?_⟩
    exact splitOnLast_none_imp '@' auth hs (he ▸ hc)
  · rw [hs] at hc
    obtain ⟨heq, hni⟩ := splitOnLast_eq_some '@' auth u hp2 hs
    refine ⟨?_, fun he => hni (he ▸ hc)⟩
    rw [heq]
    exact List.mem_append_right u (List.mem_cons_of_mem _ hc)

theorem splitPort_sub (hostport : List Char) :
    ∀ c ∈ (splitPort hostport).1, c ∈ hostport ∧ c ≠ ':' := by
  intro c hc
  unfold splitPort at hc
  rcases hs : splitOnFirst ':' hostport with _ | ⟨hh, pt⟩
  · rw [hs] at hc
    refine ⟨hc, fun he => ?_⟩
    exact splitOnFirst_none_imp ':' hostport hs (he ▸ hc)
  · rw [hs] at hc
    obtain ⟨heq, hni⟩ := splitOnFirst_eq_some ':' hostport hh pt hs
    refine ⟨?_, fun he => hni (he ▸ hc)⟩
    rw [heq]
    exact List.mem_append_left _ hc

theorem splitSearch_shape (ap : List Char) :
    (splitSearch ap).1 = [] ∨
      ∃ rq, (splitSearch ap).1 = '?' :: rq ∧ rq ≠ [] ∧ '#' ∉ rq := by
  rcases ap with _ | ⟨c, t⟩
  · left; rfl
  · by_cases hc : c = '?'
    · subst hc
      by_cases hrq : t.takeWhile (fun c => !(c = '#')) = []
      · left
        simp [splitSearch, hrq]
      · right
        refine ⟨t.takeWhile (fun c => !(c = '#')), ?_, hrq, ?_⟩
        · simp [splitSearch, hrq]
        · intro hm
          have := List.mem_takeWhile_imp hm
          simp at this
    · left
      simp [splitSearch, hc]

theorem parseHier_good (rawScheme rest : List Char) (p : ParsedUrl)
    (hv : validScheme rawScheme = true) (h : parseHier rawScheme rest = some p) :
    GoodUrl p := by
  simp only [parseHier] at h
  split at h
  · exact absurd h (by simp)
  · split at h
    · exact absurd h (by simp)
    · rename_i hhost hport
      injection h with h2
      subst h2
      constructor
      · exact ⟨lowerL rawScheme, rfl, validScheme_lowerL hv, lowerL_idem rawScheme⟩
      · exact hhost
      · intro c hc
        obtain ⟨hc2, hcol⟩ := splitPort_sub _ c hc
        obtain ⟨hc3, hat⟩ := splitUserinfo_sub _ c hc2
        have := List.mem_takeWhile_imp hc3
        refine ⟨by simpa using this, hat, hcol⟩
      · show ∃ t, (if (rest.dropWhile fun c => !isAuthEnd c).takeWhile
            (fun c => !isPathEnd c) = [] then ['/']
          else (rest.dropWhile fun c => !isAuthEnd c).takeWhile fun c => !isPathEnd c) =
            '/' :: t
        by_cases hrp : (rest.dropWhile fun c => !isAuthEnd c).takeWhile
            (fun c => !isPathEnd c) = []
        · exact ⟨[], by rw [if_pos hrp]⟩
        · obtain ⟨c, t, htk⟩ := List.exists_cons_of_ne_nil hrp
          · obtain ⟨u, hu, hpe⟩ := takeWhile_cons_inv _ _ c t htk
            have hae : (fun c => !isAuthEnd c) c = false :=
              dropWhile_cons_head _ rest c u hu
            have hae2 : isAuthEnd c = true := by simpa using hae
            have hpe2 : isPathEnd c = false := by simpa using hpe
            have hc : c = '/' := by
              simp only [isAuthEnd, Bool.or_eq_true, decide_eq_true_eq] at hae2
              simp only [isPathEnd, Bool.or_eq_false_iff,
                decide_eq_false_iff_not] at hpe2
              rcases hae2 with (h1 | h1) | h1
              · exact h1
              · exact absurd h1 hpe2.1
              · exact absurd h1 hpe2.2
            exact ⟨t, by rw [if_neg hrp, htk, hc]⟩
      · intro c hc
        by_cases hrp : (rest.dropWhile fun c => !isAuthEnd c).takeWhile
            (fun c => !isPathEnd c) = []
        · rw [if_pos hrp] at hc
          have : c = '/' := by simpa using hc
          subst this
          rfl
        · rw [if_neg hrp] at hc
          have := List.mem_takeWhile_imp hc
          simpa using this
      · exact splitSearch_shape _

/-- Successful parses factor through `parseHier` on a valid scheme. -/
theorem parseUrlL_inv (l : List Char) (p : ParsedUrl) (h : parseUrlL l = some p) :
    ∃ rawScheme rest, validScheme rawScheme = true ∧
      parseHier rawScheme rest = some p := by
  unfold parseUrlL at h
  split at h
  · exact absurd h (by simp)
  · rename_i sch aft heq
    by_cases hv : validScheme sch = true
    · rw [if_pos hv] at h
      split at h
      · rename_i x1 c1 c2 rest heq2
        split at h
        · exact ⟨sch, heq2, hv, h⟩
        · exact absurd h (by simp)
      · exact absurd h (by simp)
    · rw [if_neg hv] at h
      exact absurd h (by simp)

theorem parseUrlL_good (l : List Char) (p : ParsedUrl) (h : parseUrlL l = some p) :
    GoodUrl p := by
  obtain ⟨rawScheme, rest, hv, hh⟩ := parseUrlL_inv l p h
  exact parseHier_good rawScheme rest p hv hh

theorem parseUrl_good (s : String) (p : ParsedUrl) (h : parseUrl s = some p) :
    GoodUrl p :=
  parseUrlL_good s.data p h

theorem validScheme_no_colon {sb : List Char} (h : validScheme sb = true) :
    ':' ∉ sb := by
  rcases sb with _ | ⟨c, cs⟩
  · exact List.not_mem_nil _
  · simp only [validScheme, Bool.and_eq_true, List.all_eq_true] at h
    intro hm
    rcases List.mem_cons.mp hm with he | hm2
    · rw [← he] at h
      exact absurd h.1 (by decide)
    · have := h.2 ':' hm2
      exact absurd this (by decide)

theorem lowerL_host_no {host : List Char}
    (h : ∀ c ∈ host, isAuthEnd c = false ∧ c ≠ '@' ∧ c ≠ ':') :
    ∀ c ∈ lowerL host, isAuthEnd c = false ∧ c ≠ '@' ∧ c ≠ ':' := by
  intro c hc
  obtain ⟨d, hd, hdc⟩ := List.mem_map.mp hc
  by_cases hu : 65 ≤ d.toNat ∧ d.toNat ≤ 90
  · have hval := lowerChar_toNat_of_upper hu.1 hu.2
    rw [hdc] at hval
    constructor
    · by_contra hne
      have : isAuthEnd c = true := by
        revert hne
        cases isAuthEnd c <;> simp
      simp only [isAuthEnd, Bool.or_eq_true, decide_eq_true_eq] at this
      rcases this with (h1 | h1) | h1
      · subst h1
        have he : ('/' : Char).toNat = 47 := rfl
        omega
      · subst h1
        have he : ('?' : Char).toNat = 63 := rfl
        omega
      · subst h1
        have he : ('#' : Char).toNat = 35 := rfl
        omega
    · constructor
      · intro he
        subst he
        have he2 : ('@' : Char).toNat = 64 := rfl
        omega
      · intro he
        subst he
        have he2 : (':' : Char).toNat = 58 := rfl
        omega
  · rw [lowerChar_eq_self hu] at hdc
    exact hdc ▸ h d hd

/-- Building block: a well-formed absolute URL string parses into the
expected components. -/
theorem parseUrlL_build (sb rest2 : List Char) (hv : validScheme sb = true) :
    parseUrlL (sb ++ ':' :: '/' :: '/' :: rest2) = parseHier sb rest2 := by
  unfold parseUrlL
  rw [splitOnFirst_app ':' sb ('/' :: '/' :: rest2) (validScheme_no_colon hv)]
  simp [hv]

/-- Computation of `parseHier` on an authority-path split with no query
part. -/
theorem parseHier_build_noq (sb host path : List Char)
    (hhne : host ≠ [])
    (hhno : ∀ c ∈ host, isAuthEnd c = false ∧ c ≠ '@' ∧ c ≠ ':')
    (pt : List Char) (hpath : path = '/' :: pt)
    (hpno : ∀ c ∈ path, isPathEnd c = false) :
    parseHier sb (host ++ path) = some {
      protocol := lowerL sb ++ [':']
      userinfo := none
      hostname := host
      port := none
      pathname := path
      search := []
      hash := [] } := by
  have htake : (host ++ path).takeWhile (fun c => !isAuthEnd c) = host := by
    rw [hpath]
    exact takeWhile_middle _ host pt '/'
      (fun c hc => by simp [(hhno c hc).1]) (by decide)
  have hdrop : (host ++ path).dropWhile (fun c => !isAuthEnd c) = path := by
    rw [hpath]
    exact dropWhile_middle _ host pt '/'
      (fun c hc => by simp [(hhno c hc).1]) (by decide)
  have hui : splitUserinfo host = (none, host) := by
    unfold splitUserinfo
    rw [splitOnLast_eq_none_of '@' host (fun hm => (hhno '@' hm).2.1 rfl)]
  have hpt : splitPort host = (host, none) := by
    unfold splitPort
    rw [splitOnFirst_eq_none_of ':' host (fun hm => (hhno ':' hm).2.2 rfl)]
  have hptake : path.takeWhile (fun c => !isPathEnd c) = path :=
    takeWhile_eq_self_of _ path fun c hc => by simp [hpno c hc]
  have hpdrop : path.dropWhile (fun c => !isPathEnd c) = [] :=
    dropWhile_eq_nil_of _ path fun c hc => by simp [hpno c hc]
  simp only [parseHier, htake, hdrop, hui, hpt, hptake, hpdrop]
  rw [if_neg hhne]
  simp only [portOk, Bool.not_true, if_neg (by simp : ¬ false = true)]
  rw [if_neg (hpath ▸ (by simp : ('/' :: pt : List Char) ≠ []))]
  rfl

/-- Computation of `parseHier` on an authority-path split with a query
part present. -/
theorem parseHier_build_q (sb host path qt : List Char)
    (hhne : host ≠ [])
    (hhno : ∀ c ∈ host, isAuthEnd c = false ∧ c ≠ '@' ∧ c ≠ ':')
    (pt : List Char) (hpath : path = '/' :: pt)
    (hpno : ∀ c ∈ path, isPathEnd c = false)
    (hqt : '#' ∉ qt) :
    parseHier sb (host ++ (path ++ '?' :: qt)) = some {
      protocol := lowerL sb ++ [':']
      userinfo := none
      hostname := host
      port := none
      pathname := path
      search := if qt = [] then [] else '?' :: qt
      hash := [] } := by
  have hshape : path ++ '?' :: qt = '/' :: (pt ++ '?' :: qt) := by
    rw [hpath]; rfl
  have htake : (host ++ (path ++ '?' :: qt)).takeWhile (fun c => !isAuthEnd c) = host := by
    rw [hshape]
    exact takeWhile_middle _ host (pt ++ '?' :: qt) '/'
      (fun c hc => by simp [(hhno c hc).1]) (by decide)
  have hdrop : (host ++ (path ++ '?' :: qt)).dropWhile (fun c => !isAuthEnd c) =
      path ++ '?' :: qt := by
    rw [hshape]
    exact dropWhile_middle _ host (pt ++ '?' :: qt) '/'
      (fun c hc => by simp [(hhno c hc).1]) (by decide)
  have hui : splitUserinfo host = (none, host) := by
    unfold splitUserinfo
    rw [splitOnLast_eq_none_of '@' host (fun hm => (hhno '@' hm).2.1 rfl)]
  have hpt : splitPort host = (host, none) := by
    unfold splitPort
    rw [splitOnFirst_eq_none_of ':' host (fun hm => (hhno ':' hm).2.2 rfl)]
  have hptake : (path ++ '?' :: qt).takeWhile (fun c => !isPathEnd c) = path :=
    takeWhile_middle _ path qt '?'
      (fun c hc => by simp [hpno c hc]) (by decide)
  have hpdrop : (path ++ '?' :: qt).dropWhile (fun c => !isPathEnd c) = '?' :: qt :=
    dropWhile_middle _ path qt '?'
      (fun c hc => by simp [hpno c hc]) (by decide)
  have hqtake : qt.takeWhile (fun c => !(c = '#')) = qt :=
    takeWhile_eq_self_of _ qt fun c hc => by
      simp only [Bool.not_eq_true']
      exact decide_eq_false fun he => hqt (he ▸ hc)
  have hqdrop : qt.dropWhile (fun c => !(c = '#')) = [] :=
    dropWhile_eq_nil_of _ qt fun c hc => by
      simp only [Bool.not_eq_true']
      exact decide_eq_false fun he => hqt (he ▸ hc)
  have hsearch : splitSearch ('?' :: qt) = (if qt = [] then [] else '?' :: qt, []) := by
    simp only [splitSearch, hqtake, hqdrop]
  simp only [parseHier, htake, hdrop, hui, hpt, hptake, hpdrop, hsearch]
  rw [if_neg hhne]
  simp only [portOk, Bool.not_true, if_neg (by simp : ¬ false = true)]
  rw [if_neg (hpath ▸ (by simp : ('/' :: pt : List Char) ≠ []))]
  rfl

/-- The query part of the dedup key: sorted re-serialized parameters. -/
def renderQ (p : ParsedUrl) : List Char :=
  renderEntries (sortEntries (searchEntries p))

/-- The parsed form of a dedup key built by `renderKey`: lowercased
hostname, no port, no userinfo, no fragment, sorted query (dropped
entirely when it serializes to nothing). -/
def normalForm (p : ParsedUrl) : ParsedUrl where
  protocol := p.protocol
  userinfo := none
  hostname := lowerL p.hostname
  port := none
  pathname := p.pathname
  search := if p.search = [] then [] else if renderQ p = [] then [] else '?' :: renderQ p
  hash := []

theorem renderQ_no_hash (p : ParsedUrl) (rq0 : List Char)
    (hs : p.search = '?' :: rq0) (hnh : '#' ∉ rq0) : '#' ∉ renderQ p := by
  intro hm
  unfold renderQ at hm
  rcases mem_renderEntries _ _ hm with he | he | ⟨e, hes, hce⟩
  · exact absurd he (by decide)
  · exact absurd he (by decide)
  · have hes2 : e ∈ searchEntries p := (List.Perm.mem_iff (sortEntries_perm _)).mp hes
    have : searchEntries p = parseQuery rq0 := by
      unfold searchEntries
      rw [hs]
    rw [this] at hes2
    exact hnh (parseQuery_chars rq0 e hes2 '#' hce)

/-- Parsing a rendered dedup key succeeds and yields the normal form. -/
theorem parse_renderKey (p : ParsedUrl) (hg : GoodUrl p) :
    parseUrlL (renderKey p) = some (normalForm p) := by
  obtain ⟨sb, hproto, hvs, hlow⟩ := hg.proto
  obtain ⟨pt, hpath⟩ := hg.path_head
  have hhno := lowerL_host_no hg.host_no
  have hhne := lowerL_ne_nil hg.host_ne
  rcases hg.search_shape with hs | ⟨rq0, hs, hrqne, hnh⟩
  · have hkey : renderKey p =
        sb ++ ':' :: '/' :: '/' :: (lowerL p.hostname ++ p.pathname) := by
      rw [renderKey, if_pos hs, hproto]
      simp [List.append_assoc]
    rw [hkey, parseUrlL_build sb _ hvs,
      parseHier_build_noq sb (lowerL p.hostname) p.pathname hhne hhno pt hpath
        hg.path_no]
    simp [normalForm, hs, hlow, ← hproto]
  · have hsne : ¬ p.search = [] := by rw [hs]; simp
    have hnh2 : '#' ∉ renderQ p := renderQ_no_hash p rq0 hs hnh
    have hkey : renderKey p = sb ++ ':' :: '/' :: '/' ::
        (lowerL p.hostname ++ (p.pathname ++ '?' :: renderQ p)) := by
      rw [renderKey, if_neg hsne, hproto]
      simp [renderQ, List.append_assoc]
    rw [hkey, parseUrlL_build sb _ hvs,
      parseHier_build_q sb (lowerL p.hostname) p.pathname (renderQ p) hhne hhno pt
        hpath hg.path_no hnh2]
    simp [normalForm, hsne, hlow, ← hproto]

/-- Re-rendering the normal form reproduces the key, provided the query
was not degenerate (nonempty search yet zero parameters). -/
theorem renderKey_normalForm (p : ParsedUrl)
    (hcond : p.search = [] ∨ searchEntries p ≠ []) :
    renderKey (normalForm p) = renderKey p := by
  rcases hcond with hs | hne
  · unfold renderKey normalForm
    simp [hs, lowerL_idem]
  · have hes : searchEntries p ≠ [] := hne
    have hsne : p.search ≠ [] := by
      intro h0
      apply hes
      unfold searchEntries
      rw [h0]
    have hsorted_ne : sortEntries (searchEntries p) ≠ [] := by
      intro h0
      have hperm := sortEntries_perm (searchEntries p)
      rw [h0] at hperm
      exact hes hperm.symm.eq_nil
    have hqne : renderQ p ≠ [] := renderEntries_ne_nil _ hsorted_ne
    have hwf : ∀ e ∈ sortEntries (searchEntries p), entryWf e := by
      intro e he
      have he2 : e ∈ searchEntries p := (List.Perm.mem_iff (sortEntries_perm _)).mp he
      unfold searchEntries at he2
      rcases hsearch : p.search with _ | ⟨c, raw⟩
      · rw [hsearch] at he2
        exact absurd he2 (List.not_mem_nil e)
      · rw [hsearch] at he2
        exact parseQuery_wf raw e he2
    have hround : searchEntries (normalForm p) = sortEntries (searchEntries p) := by
      show (match (normalForm p).search with
        | [] => ([] : List QEntry)
        | _ :: raw => parseQuery raw) = sortEntries (searchEntries p)
      have : (normalForm p).search = '?' :: renderQ p := by
        unfold normalForm
        simp [hsne, hqne]
      rw [this]
      exact parseQuery_renderEntries _ hsorted_ne hwf
    have hq2 : renderQ (normalForm p) = renderQ p := by
      unfold renderQ
      rw [hround, sortEntries_idem]
    have hs2 : (normalForm p).search ≠ [] := by
      unfold normalForm
      simp [hsne, hqne]
    unfold renderKey
    rw [if_neg hsne, if_neg hs2]
    show (normalForm p).protocol ++ '/' :: '/' :: lowerL (normalForm p).hostname ++
        (normalForm p).pathname ++ '?' :: renderEntries (sortEntries
          (searchEntries (normalForm p))) = _
    rw [hround, sortEntries_idem]
    unfold normalForm
    simp [lowerL_idem]

theorem searchEntries_normalForm (p : ParsedUrl) :
    searchEntries (normalForm p) = sortEntries (searchEntries p) := by
  by_cases hs : p.search = []
  · have h1 : searchEntries p = [] := by
      unfold searchEntries
      rw [hs]
    have h2 : (normalForm p).search = [] := by
      unfold normalForm
      simp [hs]
    have h4 : searchEntries (normalForm p) = [] := by
      unfold searchEntries
      rw [h2]
    rw [h4, h1]
    rfl
  · by_cases hq : renderQ p = []
    · have h2 : (normalForm p).search = [] := by
        unfold normalForm
        simp [hs, hq]
      have h3 : sortEntries (searchEntries p) = [] := by
        by_contra hne
        exact (renderEntries_ne_nil _ hne) hq
      have h4 : searchEntries (normalForm p) = [] := by
        unfold searchEntries
        rw [h2]
      rw [h4, h3]
    · have hsorted_ne : sortEntries (searchEntries p) ≠ [] := by
        intro h0
        apply hq
        unfold renderQ
        rw [h0]
        rfl
      have hwf : ∀ e ∈ sortEntries (searchEntries p), entryWf e := by
        intro e he
        have he2 : e ∈ searchEntries p := (List.Perm.mem_iff (sortEntries_perm _)).mp he
        unfold searchEntries at he2
        rcases hsearch : p.search with _ | ⟨c, raw⟩
        · rw [hsearch] at he2
          exact absurd he2 (List.not_mem_nil e)
        · rw [hsearch] at he2
          exact parseQuery_wf raw e he2
      have h2 : (normalForm p).search = '?' :: renderQ p := by
        unfold normalForm
        simp [hs, hq]
      have h4 : searchEntries (normalForm p) = parseQuery (renderQ p) := by
        unfold searchEntries
        rw [h2]
      rw [h4]
      exact parseQuery_renderEntries _ hsorted_ne hwf

theorem normalizeUrl_eq_renderKey (u : String) (p : ParsedUrl)
    (h : parseUrl u = some p) : normalizeUrl u = ⟨renderKey p⟩ := by
  unfold normalizeUrl
  rw [h]

/-- C3: on every parseable URL, the key has lowercased hostname, the
pathname exactly as parsed, no fragment, and the query entries sorted. -/
theorem c3_normalize_key_shape (u : String) (p : ParsedUrl)
    (h : parseUrl u = some p) :
    (∃ p2, parseUrl (normalizeUrl u) = some p2
      ∧ p2.hostname = lowerL p.hostname
      ∧ p2.pathname = p.pathname
      ∧ p2.hash = []
      ∧ searchEntries p2 = sortEntries (searchEntries p)
      ∧ List.Sorted entryRel (searchEntries p2)
      ∧ List.Perm (searchEntries p2) (searchEntries p))
    ∧ normalizeUrl "http://ex.com/p?b=2&a=1" = normalizeUrl "http://ex.com/p?a=1&b=2" := by
  constructor
  · refine ⟨normalForm p, ?_, rfl, rfl, rfl, searchEntries_normalForm p, ?_, ?_⟩
    · rw [normalizeUrl_eq_renderKey u p h]
      exact parse_renderKey p (parseUrl_good u p h)
    · rw [searchEntries_normalForm p]
      exact sortEntries_sorted _
    · rw [searchEntries_normalForm p]
      exact sortEntries_perm _
  · rfl

/-- C4: on a string the URL parser rejects, the normalizer returns the
input unchanged (and, being a total function, never throws). -/
theorem c4_normalize_unparseable (u : String) (h : parseUrl u = none) :
    normalizeUrl u = u := by
  unfold normalizeUrl
  rw [h]

/-- Witness for C4 at a concrete unparseable input. -/
theorem c4_normalize_unparseable_witness :
    parseUrl "not a url" = none ∧ normalizeUrl "not a url" = "not a url" :=
  ⟨rfl, c4_normalize_unparseable "not a url" rfl⟩

/-- Does the URL parse with a truthy `search` whose parameter list is
nevertheless empty (a query of separators only, e.g. `?&&`)?  These are
exactly the inputs on which a normalized key ends in a bare `?`. -/
def queryDegenerate (u : String) : Bool :=
  match parseUrl u with
  | none => false
  | some p => !p.search.isEmpty && (searchEntries p).isEmpty

/-- C5 counterexample: normalization is not idempotent on `http://h/p?&&`
(first pass keeps a dangling `?`, second pass drops it). -/
theorem c5_idempotent_counterexample :
    normalizeUrl (normalizeUrl "http://h/p?&&") ≠ normalizeUrl "http://h/p?&&" := by
  decide

/-- C5 (amended): the normalizer is idempotent on every input except a
parseable URL whose nonempty query holds zero parameters. -/
theorem c5_idempotent_amended (u : String) (h : queryDegenerate u = false) :
    normalizeUrl (normalizeUrl u) = normalizeUrl u := by
  rcases hp : parseUrl u with _ | p
  · have h1 : normalizeUrl u = u := by
      unfold normalizeUrl
      rw [hp]
    rw [h1, h1]
  · have hcond : p.search = [] ∨ searchEntries p ≠ [] := by
      unfold queryDegenerate at h
      rw [hp] at h
      have h2 : (!p.search.isEmpty && (searchEntries p).isEmpty) = false := h
      by_cases hs : p.search = []
      · exact Or.inl hs
      · right
        intro hse
        rw [hse] at h2
        have h3 : p.search.isEmpty = false := by
          rcases hps : p.search with _ | ⟨c, t⟩
          · exact absurd hps hs
          · rfl
        rw [h3] at h2
        simp at h2
    have hg := parseUrl_good u p hp
    have h1 : normalizeUrl u = ⟨renderKey p⟩ := normalizeUrl_eq_renderKey u p hp
    have h2 : parseUrl (⟨renderKey p⟩ : String) = some (normalForm p) :=
      parse_renderKey p hg
    rw [h1]
    have h3 : normalizeUrl ⟨renderKey p⟩ = ⟨renderKey (normalForm p)⟩ :=
      normalizeUrl_eq_renderKey _ _ h2
    rw [h3, renderKey_normalForm p hcond]

/-- Witness for the amended C5 at a concrete input. -/
theorem c5_idempotent_amended_witness :
    queryDegenerate "https://a.com/p?x=1" = false ∧
      normalizeUrl (normalizeUrl "https://a.com/p?x=1") =
        normalizeUrl "https://a.com/p?x=1" :=
  ⟨rfl, c5_idempotent_amended "https://a.com/p?x=1" rfl⟩

/-- C10: the key is built only from protocol, hostname, pathname and
search, so URLs differing only in port (or userinfo, or fragment)
normalize identically; in particular an explicit port never survives. -/
theorem c10_port_dropped (u1 u2 : String) (p1 p2 : ParsedUrl)
    (h1 : parseUrl u1 = some p1) (h2 : parseUrl u2 = some p2)
    (hpr : p1.protocol = p2.protocol) (hh : p1.hostname = p2.hostname)
    (hpa : p1.pathname = p2.pathname) (hse : p1.search = p2.search) :
    normalizeUrl u1 = normalizeUrl u2
    ∧ normalizeUrl "https://h:8443/p" = normalizeUrl "https://h/p" := by
  constructor
  · rw [normalizeUrl_eq_renderKey u1 p1 h1, normalizeUrl_eq_renderKey u2 p2 h2]
    have hent : searchEntries p1 = searchEntries p2 := by
      unfold searchEntries
      rw [hse]
    unfold renderKey
    rw [hpr, hh, hpa, hse, hent]
  · rfl

/-- Witness for C10 at the concrete pair of URLs differing only in port. -/
theorem c10_port_dropped_witness :
    normalizeUrl "https://h:8443/p" = normalizeUrl "https://h/p" :=
  (c10_port_dropped "https://h:8443/p" "https://h/p"
    ⟨"https:".data, none, "h".data, some "8443".data, "/p".data, [], []⟩
    ⟨"https:".data, none, "h".data, none, "/p".data, [], []⟩
    rfl rfl rfl rfl rfl rfl).1

/-- Witness for C3 at a concrete URL with mixed-case host, unsorted
query and a fragment. -/
theorem c3_normalize_key_shape_witness :
    (∃ p2, parseUrl (normalizeUrl "HTTP://Ex.Com/Path?b=2&a=1#frag") = some p2
      ∧ p2.hostname = lowerL "Ex.Com".data
      ∧ p2.pathname = "/Path".data
      ∧ p2.hash = []
      ∧ searchEntries p2 = sortEntries (searchEntries
          ⟨"http:".data, none, "Ex.Com".data, none, "/Path".data,
            "?b=2&a=1".data, "#frag".data⟩)
      ∧ List.Sorted entryRel (searchEntries p2)
      ∧ List.Perm (searchEntries p2) (searchEntries
          ⟨"http:".data, none, "Ex.Com".data, none, "/Path".data,
            "?b=2&a=1".data, "#frag".data⟩))
    ∧ normalizeUrl "http://ex.com/p?b=2&a=1" = normalizeUrl "http://ex.com/p?a=1&b=2" :=
  c3_normalize_key_shape "HTTP://Ex.Com/Path?b=2&a=1#frag"
    ⟨"http:".data, none, "Ex.Com".data, none, "/Path".data,
      "?b=2&a=1".data, "#frag".data⟩ rfl

/-! ### The page checker and the crawl loop

`crawlAndCheckUrls` (lines 44-193): the network is modelled as a function
from a URL to the outcome the `fetch` call exhibits to this code — a
response carrying the final status (redirects already followed), an
abort fired by the 30-second timer, or a rejection with a message. -/

/-- One broken-page record, as pushed onto `brokenPages`. -/
structure BrokenPage where
  url : String
  status : Option Nat
  error : Option String
deriving Repr, DecidableEq

/-- What one `fetch(url, ...)` in the check loop can come back with. -/
inductive FetchOutcome where
  | response (status : Nat)
  | abortTimeout
  | failure (msg : String)
deriving Repr, DecidableEq

/-- The body of the per-URL check (lines 125-178): status at least 400 is
recorded with the status; an abort is recorded with the fixed timeout
message; any other rejection is recorded with its message; a response
below 400 records nothing. -/
def checkUrl (net : String → FetchOutcome) (url : String) : Option BrokenPage :=
  match net url with
  | .response status =>
    if 400 ≤ status then some ⟨url, some status, none⟩ else none
  | .abortTimeout => some ⟨url, none, some "Request timed out after 30 seconds"⟩
  | .failure msg => some ⟨url, none, some msg⟩

/-- The sequential check loop (lines 107-182): each URL is skipped when
its normalized form was already processed, otherwise checked, and the
loop always continues to the remaining candidates. -/
def crawlLoop (net : String → FetchOutcome) (processed : List String) :
    List String → List BrokenPage
  | [] => []
  | url :: rest =>
    let key := normalizeUrl url
    if key ∈ processed then crawlLoop net processed rest
    else
      match checkUrl net url with
      | some bp => bp :: crawlLoop net (key :: processed) rest
      | none => crawlLoop net (key :: processed) rest

/-- Substring test used to state that the timeout error mentions
"timed out". -/
def hasSubstr : List Char → List Char → Bool
  | hay, needle =>
    if needle.isPrefixOf hay then true
    else
      match hay with
      | [] => false
      | _ :: t => hasSubstr t needle

/-- String-level wrapper for `hasSubstr`. -/
def containsStr (hay needle : String) : Bool := hasSubstr hay.data needle.data

/-! ### Deduplication (lines 85-96 and 270-283)

A `Map` keyed on the normalized URL, keeping the first original spelling
per key; `Array.from(map.values())` preserves first-insertion order. -/

/-- Deduplication keyed on `normalizeUrl`; `seen` is the set of keys
already in the map. -/
def dedupGo (seen : List String) : List String → List String
  | [] => []
  | u :: rest =>
    let key := normalizeUrl u
    if key ∈ seen then dedupGo seen rest
    else u :: dedupGo (key :: seen) rest

/-- The dedup step of `crawlAndCheckUrls` and `findAndParseSitemaps`. -/
def dedupByNorm (urls : List String) : List String := dedupGo [] urls

/-! ### The sitemap resolver (`findAndParseSitemaps`, lines 195-289) -/

/-- Suffix test of the source (line 200): does the lowercased base URL
end in `sitemap.xml` or `sitemap_index.xml`. -/
def isSitemapUrl (baseUrl : String) : Bool :=
  "sitemap.xml".data.isSuffixOf (lowerL baseUrl.data) ||
    "sitemap_index.xml".data.isSuffixOf (lowerL baseUrl.data)

/-- The `origin` getter of a parsed URL: scheme, `//`, lowercased host
and the explicit port when present (default-port elision is not
modelled). -/
def origin (p : ParsedUrl) : List Char :=
  p.protocol ++ '/' :: '/' :: lowerL p.hostname ++
    (match p.port with
     | none => []
     | some pt => if pt = [] then [] else ':' :: pt)

/-- First non-empty `/`-separated path segment, as computed by
`pathname.split('/').filter(Boolean)[0]` (lines 210-211). -/
def firstSeg (path : List Char) : Option (List Char) :=
  ((splitAll '/' path).filter (fun s => !s.isEmpty)).head?

/-- `pathname.substring(0, pathname.lastIndexOf('/') + 1)` (line 206). -/
def pathUpToLastSlash (path : List Char) : List Char :=
  match splitOnLast '/' path with
  | none => []
  | some (a, _) => a ++ ['/']

/-- The locale-membership test of the filter (lines 249-257): parse the
URL, take its first non-empty path segment, compare with the locale;
unparseable URLs are excluded. -/
def localeMatch (locale : List Char) (url : String) : Bool :=
  match parseUrl url with
  | none => false
  | some p => firstSeg p.pathname == some locale

/-- The locale filter applied to one parsed sitemap document. -/
def filterByLocale (locale : List Char) (urls : List String) : List String :=
  urls.filter (localeMatch locale)

/-- The base URL with a trailing sitemap filename stripped (line 206),
or the base URL itself (line 207). -/
def actualBaseUrl (baseUrl : String) (bp : ParsedUrl) : List Char :=
  if isSitemapUrl baseUrl then origin bp ++ pathUpToLastSlash bp.pathname
  else baseUrl.data

/-- The ordered probe list (lines 220-226): the base URL itself when it
already names a sitemap, else the three conventional locations built by
string concatenation. -/
def sitemapLocations (baseUrl : String) (bp abp : ParsedUrl) : List String :=
  if isSitemapUrl baseUrl then [baseUrl]
  else
    [⟨actualBaseUrl baseUrl bp ++ "sitemap.xml".data⟩,
     ⟨actualBaseUrl baseUrl bp ++ "sitemap_index.xml".data⟩,
     ⟨origin abp ++ "/sitemap.xml".data⟩]

/-- What one probe location contributes (lines 231-268): nothing on a
non-ok response or fetch/parse error, else the parsed URLs, locale
filtered when a locale was detected.  `net` returns `none` exactly when
the location must be skipped. -/
def locationUrls (net : String → Option (List String))
    (locale : Option (List Char)) (loc : String) : List String :=
  match net loc with
  | none => []
  | some urls =>
    match locale with
    | none => urls
    | some l => filterByLocale l urls

/-- `findAndParseSitemaps`: detect sitemap-suffixed bases, extract the
locale from the actual base URL, probe every location, filter, and
deduplicate.  An unparseable base URL throws inside the `try`, and the
accumulated (empty) list is returned. -/
def findAndParseSitemaps (net : String → Option (List String))
    (baseUrl : String) : List String :=
  match parseUrl baseUrl with
  | none => []
  | some bp =>
    match parseUrlL (actualBaseUrl baseUrl bp) with
    | none => []
    | some abp =>
      let locale := firstSeg abp.pathname
      dedupByNorm
        (((sitemapLocations baseUrl bp abp).map (locationUrls net locale)).flatten)

/-! ### Sitemap XML parsing (`parseXmlSitemap`, lines 291-345)

The function fetches nested documents and recurses on what arrives from
the network, so in Lean it is embedded with an explicit recursion budget:
`none` means the budget was exhausted before the recursion bottomed out,
`some urls` that the source function returns `urls`.  The source itself
has no such budget — that difference is exactly what claim C9 is about. -/

/-- A parsed sitemap document as the source distinguishes them: a
sitemap index (the `<sitemap><loc>` entries), a URL set (the
`<url><loc>` entries), or anything else/malformed (which yields `[]`). -/
inductive SitemapDoc where
  | index (locs : List String)
  | urlset (urls : List String)
  | malformed
deriving Repr, DecidableEq

/-- Fuel-indexed embedding of `parseXmlSitemap`.  `net loc = none` models
a failed or non-ok nested fetch (contributing `[]`, lines 306-316);
`net loc = some d` models a fetched document parsing as `d`.  On an
index, every nested document is resolved recursively and the results are
flattened (line 319). -/
def parseXmlSitemapF (net : String → Option SitemapDoc) :
    Nat → SitemapDoc → Option (List String)
  | 0, _ => none
  | _ + 1, .urlset urls => some urls
  | _ + 1, .malformed => some []
  | n + 1, .index locs =>
    (locs.mapM fun loc =>
      match net loc with
      | none => some []
      | some d => parseXmlSitemapF net n d).map List.flatten

/-- Does the recursion on this document over this network terminate:
some finite budget suffices. -/
def SitemapTerminates (net : String → Option SitemapDoc) (doc : SitemapDoc) : Prop :=
  ∃ n, (parseXmlSitemapF net n doc).isSome = true

/-! ### The scan endpoint (`action` in the API route)

The crawl either completes with the broken-page list, or throws with a
message (the route's `catch`); the route then shapes the JSON report. -/

/-- One `{url}` record of the `pages` array. -/
structure PageRef where
  url : String
deriving Repr, DecidableEq

/-- The report shape the endpoint exposes. -/
structure ApiReport where
  error : Bool
  message : String
  pages : Option (List PageRef)
deriving Repr, DecidableEq

/-- The endpoint's `action` on a completed or failed crawl: a non-empty
broken list reports `error: true` with the count message and the pages;
an empty one reports `error: false` and no pages; a crawl failure
reports `error: true` with the failure message. -/
def action (outcome : Except String (List BrokenPage)) : ApiReport :=
  match outcome with
  | .error msg => ⟨true, msg, none⟩
  | .ok broken =>
    if broken.length > 0 then
      ⟨true, "There are " ++ toString broken.length ++ " broken pages",
        some (broken.map fun pg => ⟨pg.url⟩)⟩
    else ⟨false, "No broken pages found", none⟩

/-- C1: classification of every page-check outcome, and the loop's
progress over the whole candidate list. -/
theorem c1_page_check_classification (net : String → FetchOutcome) (url : String) :
    (∀ s, net url = .response s → 400 ≤ s →
      checkUrl net url = some ⟨url, some s, none⟩)
    ∧ (∀ s, net url = .response s → s < 400 → checkUrl net url = none)
    ∧ (net url = .abortTimeout →
      ∃ e, checkUrl net url = some ⟨url, none, some e⟩ ∧
        containsStr e "timed out" = true)
    ∧ (∀ msg, net url = .failure msg →
      checkUrl net url = some ⟨url, none, some msg⟩)
    ∧ (∀ (processed urls : List String),
        (∀ u ∈ urls, normalizeUrl u ∉ processed) →
        List.Pairwise (fun a b => normalizeUrl a ≠ normalizeUrl b) urls →
        crawlLoop net processed urls = urls.filterMap (checkUrl net)) := by
  refine ⟨?_, ?_, ?_, ?_, ?_⟩
  · intro s hs hge
    unfold checkUrl
    rw [hs]
    exact if_pos hge
  · intro s hs hlt
    unfold checkUrl
    rw [hs]
    exact if_neg (by omega)
  · intro hs
    refine ⟨"Request timed out after 30 seconds", ?_, by decide⟩
    unfold checkUrl
    rw [hs]
  · intro msg hs
    unfold checkUrl
    rw [hs]
  · intro processed urls
    induction urls generalizing processed with
    | nil => intro _ _; rfl
    | cons u rest ih =>
      intro hfresh hpw
      have hu : normalizeUrl u ∉ processed := hfresh u (List.mem_cons_self u rest)
      rw [crawlLoop]
      simp only [if_neg hu]
      have hfresh2 : ∀ v ∈ rest, normalizeUrl v ∉ normalizeUrl u :: processed := by
        intro v hv
        intro hm
        rcases List.mem_cons.mp hm with he | hm2
        · exact (List.pairwise_cons.mp hpw).1 v hv he.symm
        · exact hfresh v (List.mem_cons_of_mem u hv) hm2
      have ihr := ih (normalizeUrl u :: processed) hfresh2
        (List.pairwise_cons.mp hpw).2
      rw [List.filterMap_cons]
      rcases hcu : checkUrl net u with _ | bp
      · exact ihr
      · rw [ihr]

/-- Witness for C1 at concrete networks and URLs. -/
theorem c1_page_check_classification_witness :
    checkUrl (fun _ => .response 404) "https://a/x" =
      some ⟨"https://a/x", some 404, none⟩
    ∧ checkUrl (fun _ => .response 200) "https://a/x" = none
    ∧ (∃ e, checkUrl (fun _ => .abortTimeout) "https://a/x" =
        some ⟨"https://a/x", none, some e⟩ ∧ containsStr e "timed out" = true)
    ∧ checkUrl (fun _ => .failure "getaddrinfo ENOTFOUND") "https://a/x" =
      some ⟨"https://a/x", none, some "getaddrinfo ENOTFOUND"⟩
    ∧ crawlLoop (fun _ => .response 404) [] ["https://a/x", "https://a/y"] =
      ["https://a/x", "https://a/y"].filterMap (checkUrl fun _ => .response 404) := by
  refine ⟨?_, ?_, ?_, ?_, ?_⟩
  · exact (c1_page_check_classification (fun _ => .response 404) "https://a/x").1
      404 rfl (by omega)
  · exact (c1_page_check_classification (fun _ => .response 200)
      "https://a/x").2.1 200 rfl (by omega)
  · exact (c1_page_check_classification (fun _ => .abortTimeout)
      "https://a/x").2.2.1 rfl
  · exact (c1_page_check_classification (fun _ => .failure "getaddrinfo ENOTFOUND")
      "https://a/x").2.2.2.1 "getaddrinfo ENOTFOUND" rfl
  · exact (c1_page_check_classification (fun _ => .response 404)
      "https://a/x").2.2.2.2 [] ["https://a/x", "https://a/y"]
      (by intro u hu; simp) (by decide)

theorem dedupGo_spec (urls : List String) : ∀ seen,
    (dedupGo seen urls).length ≤ urls.length
    ∧ List.Pairwise (fun a b => normalizeUrl a ≠ normalizeUrl b) (dedupGo seen urls)
    ∧ ∀ u ∈ dedupGo seen urls, normalizeUrl u ∉ seen := by
  induction urls with
  | nil =>
    intro seen
    exact ⟨Nat.le_refl 0, List.Pairwise.nil, by intro u hu; exact absurd hu (by simp [dedupGo])⟩
  | cons u rest ih =>
    intro seen
    by_cases hk : normalizeUrl u ∈ seen
    · rw [dedupGo]
      simp only [if_pos hk]
      obtain ⟨h1, h2, h3⟩ := ih seen
      exact ⟨Nat.le_succ_of_le h1, h2, h3⟩
    · rw [dedupGo]
      simp only [if_neg hk]
      obtain ⟨h1, h2, h3⟩ := ih (normalizeUrl u :: seen)
      refine ⟨by simpa using h1, ?_, ?_⟩
      · rw [List.pairwise_cons]
        refine ⟨fun v hv he => ?_, h2⟩
        exact h3 v hv (he ▸ List.mem_cons_self _ _)
      · intro w hw
        rcases List.mem_cons.mp hw with he | hm
        · exact he ▸ hk
        · exact fun hmem => h3 w hm (List.mem_cons_of_mem _ hmem)

theorem dedupGo_subset (urls : List String) :
    ∀ seen u, u ∈ dedupGo seen urls → u ∈ urls := by
  induction urls with
  | nil => intro seen u hu; exact absurd hu (by simp [dedupGo])
  | cons v rest ih =>
    intro seen u hu
    rw [dedupGo] at hu
    by_cases hk : normalizeUrl v ∈ seen
    · rw [if_pos hk] at hu
      exact List.mem_cons_of_mem v (ih seen u hu)
    · rw [if_neg hk] at hu
      rcases List.mem_cons.mp hu with he | hm
      · exact he ▸ List.mem_cons_self v rest
      · exact List.mem_cons_of_mem v (ih _ u hm)

/-- C6: deduplication never grows the list and leaves all normalized keys
pairwise distinct. -/
theorem c6_dedup_invariant (urls : List String) :
    (dedupByNorm urls).length ≤ urls.length
    ∧ List.Pairwise (fun a b => normalizeUrl a ≠ normalizeUrl b) (dedupByNorm urls) :=
  ⟨(dedupGo_spec urls []).1, (dedupGo_spec urls []).2.1⟩

/-- C2: the exposed report has `error = true` exactly when the broken
list is nonempty or the crawl failed; the two success messages and the
presence of `pages` follow the broken count. -/
theorem c2_report_shape (o : Except String (List BrokenPage)) :
    ((action o).error = true ↔
      (∃ m, o = .error m) ∨ ∃ b, o = .ok b ∧ b ≠ [])
    ∧ action (Except.ok ([] : List BrokenPage)) =
      ⟨false, "No broken pages found", none⟩
    ∧ (∀ b : List BrokenPage, b ≠ [] →
      action (.ok b) =
        ⟨true, "There are " ++ toString b.length ++ " broken pages",
          some (b.map fun pg => ⟨pg.url⟩)⟩) := by
  refine ⟨?_, rfl, ?_⟩
  · rcases o with m | b
    · simp only [action]
      constructor
      · intro _
        exact Or.inl ⟨m, rfl⟩
      · intro _
        trivial
    · rcases hb : b with _ | ⟨x, t⟩
      · simp only [action]
        constructor
        · intro h
          exact absurd h (by simp)
        · rintro (⟨m, hm⟩ | ⟨b2, hb2, hne⟩)
          · exact absurd hm (by simp)
          · have : b2 = [] := by
              have := hb2
              simp only [Except.ok.injEq] at this
              exact this.symm
            exact absurd this hne
      · simp only [action, List.length_cons]
        constructor
        · intro _
          exact Or.inr ⟨x :: t, rfl, by simp⟩
        · intro _
          simp
  · intro b hb
    have hlen : b.length > 0 := List.length_pos.mpr hb
    simp only [action, if_pos hlen]

/-- Witness for C2 at a concrete failed crawl and a concrete one-broken
crawl. -/
theorem c2_report_shape_witness :
    ((action (Except.error "fetch failed" : Except String (List BrokenPage))).error = true ↔
      (∃ m, (Except.error "fetch failed" : Except String (List BrokenPage)) = .error m) ∨
        ∃ b, (Except.error "fetch failed" : Except String (List BrokenPage)) = .ok b ∧ b ≠ [])
    ∧ action (.ok [⟨"https://a/x", some 404, none⟩]) =
      ⟨true, "There are " ++ toString (1 : Nat) ++ " broken pages",
        some [⟨"https://a/x"⟩]⟩ :=
  ⟨(c2_report_shape (Except.error "fetch failed")).1,
    (c2_report_shape (Except.ok [])).2.2 [⟨"https://a/x", some 404, none⟩] (by simp)⟩

/-- C7: the locale filter keeps exactly the URLs whose first path segment
is the locale; with a locale detected in the base URL, everything the
resolver returns passes it; the three-URL example filters to the two
`en` URLs. -/
theorem c7_locale_filter (locale : List Char) (urls : List String) (u : String) :
    (u ∈ filterByLocale locale urls ↔ u ∈ urls ∧ localeMatch locale u = true)
    ∧ (∀ (net : String → Option (List String)) (baseUrl : String)
        (bp abp : ParsedUrl) (loc : List Char),
        parseUrl baseUrl = some bp →
        parseUrlL (actualBaseUrl baseUrl bp) = some abp →
        firstSeg abp.pathname = some loc →
        ∀ v ∈ findAndParseSitemaps net baseUrl, localeMatch loc v = true)
    ∧ findAndParseSitemaps
        (fun s => if s = "https://site.com/en/sitemap.xml"
          then some ["https://site.com/en/a", "https://site.com/fr/a",
            "https://site.com/en/b"]
          else none)
        "https://site.com/en/" =
      ["https://site.com/en/a", "https://site.com/en/b"] := by
  refine ⟨List.mem_filter, ?_, by decide⟩
  intro net baseUrl bp abp loc hbp habp hloc v hv
  unfold findAndParseSitemaps at hv
  rw [hbp] at hv
  have hv1 : v ∈ (match parseUrlL (actualBaseUrl baseUrl bp) with
    | none => ([] : List String)
    | some abp2 =>
      dedupByNorm (((sitemapLocations baseUrl bp abp2).map
        (locationUrls net (firstSeg abp2.pathname))).flatten)) := hv
  rw [habp] at hv1
  have hv3 : v ∈ dedupByNorm (((sitemapLocations baseUrl bp abp).map
      (locationUrls net (firstSeg abp.pathname))).flatten) := hv1
  rw [hloc] at hv3
  have hv2 := dedupGo_subset _ [] v hv3
  obtain ⟨l, hl, hvl⟩ := List.mem_flatten.mp hv2
  obtain ⟨loc2, _, hloc2⟩ := List.mem_map.mp hl
  rw [← hloc2] at hvl
  unfold locationUrls at hvl
  rcases hnet : net loc2 with _ | fetched
  · rw [hnet] at hvl
    exact absurd hvl (List.not_mem_nil v)
  · rw [hnet] at hvl
    exact (List.mem_filter.mp hvl).2

/-- Witness for C7 at the concrete locale scenario. -/
theorem c7_locale_filter_witness :
    ("https://site.com/en/a" ∈ filterByLocale "en".data
        ["https://site.com/en/a", "https://site.com/fr/a"] ↔
      "https://site.com/en/a" ∈
          ["https://site.com/en/a", "https://site.com/fr/a"] ∧
        localeMatch "en".data "https://site.com/en/a" = true)
    ∧ localeMatch "en".data "https://site.com/en/a" = true := by
  constructor
  · exact (c7_locale_filter "en".data
      ["https://site.com/en/a", "https://site.com/fr/a"] "https://site.com/en/a").1
  · exact (c7_locale_filter "en".data [] "x").2.1
      (fun s => if s = "https://site.com/en/sitemap.xml"
        then some ["https://site.com/en/a", "https://site.com/fr/a",
          "https://site.com/en/b"]
        else none)
      "https://site.com/en/"
      ⟨"https:".data, none, "site.com".data, none, "/en/".data, [], []⟩
      ⟨"https:".data, none, "site.com".data, none, "/en/".data, [], []⟩
      "en".data rfl rfl rfl "https://site.com/en/a" (by decide)

/-- C8 counterexample: for the parseable, non-sitemap base URL
`https://h:8080` (no trailing slash), the first probe location is the
concatenation `https://h:8080sitemap.xml`, which is not a well-formed
URL (non-numeric port), so the probes are not all well-formed joins of
the site root with the sitemap filename. -/
theorem c8_probe_locations_counterexample :
    isSitemapUrl "https://h:8080" = false
    ∧ parseUrl "https://h:8080" =
      some ⟨"https:".data, none, "h".data, some "8080".data, "/".data, [], []⟩
    ∧ sitemapLocations "https://h:8080"
        ⟨"https:".data, none, "h".data, some "8080".data, "/".data, [], []⟩
        ⟨"https:".data, none, "h".data, some "8080".data, "/".data, [], []⟩ =
      ["https://h:8080sitemap.xml", "https://h:8080sitemap_index.xml",
        "https://h:8080/sitemap.xml"]
    ∧ parseUrl "https://h:8080sitemap.xml" = none := by
  refine ⟨rfl, by decide, by decide, by decide⟩

/-- C8 (amended): for a non-sitemap base URL the resolver probes exactly
the three concatenated locations in order, and a failed probe (non-ok or
fetch error) contributes nothing while the resolution continues — its
result is the same as if that location had held an empty document. -/
theorem c8_probe_locations_amended :
    (∀ (baseUrl : String) (bp : ParsedUrl), parseUrl baseUrl = some bp →
      isSitemapUrl baseUrl = false →
      sitemapLocations baseUrl bp bp =
        [⟨baseUrl.data ++ "sitemap.xml".data⟩,
         ⟨baseUrl.data ++ "sitemap_index.xml".data⟩,
         ⟨origin bp ++ "/sitemap.xml".data⟩])
    ∧ (∀ (net : String → Option (List String)) (loc baseUrl : String),
        findAndParseSitemaps (fun x => if x = loc then none else net x) baseUrl =
          findAndParseSitemaps (fun x => if x = loc then some [] else net x) baseUrl) := by
  constructor
  · intro baseUrl bp _ hns
    unfold sitemapLocations actualBaseUrl
    rw [if_neg (by simp [hns]), if_neg (by simp [hns])]
  · intro net loc baseUrl
    unfold findAndParseSitemaps
    rcases hb : parseUrl baseUrl with _ | bp
    · rfl
    · show (match parseUrlL (actualBaseUrl baseUrl bp) with
        | none => ([] : List String)
        | some abp => dedupByNorm (((sitemapLocations baseUrl bp abp).map
            (locationUrls (fun x => if x = loc then none else net x)
              (firstSeg abp.pathname))).flatten)) =
        (match parseUrlL (actualBaseUrl baseUrl bp) with
        | none => ([] : List String)
        | some abp => dedupByNorm (((sitemapLocations baseUrl bp abp).map
            (locationUrls (fun x => if x = loc then some [] else net x)
              (firstSeg abp.pathname))).flatten))
      rcases hab : parseUrlL (actualBaseUrl baseUrl bp) with _ | abp
      · rfl
      · have hcongr : ∀ loc2 : String,
            locationUrls (fun x => if x = loc then none else net x)
              (firstSeg abp.pathname) loc2 =
            locationUrls (fun x => if x = loc then some [] else net x)
              (firstSeg abp.pathname) loc2 := by
          intro loc2
          unfold locationUrls
          by_cases he : loc2 = loc
          · rcases firstSeg abp.pathname with _ | l
            · simp [he]
            · simp [he, filterByLocale]
          · simp [he]
        simp only [List.map_congr_left fun loc2 _ => hcongr loc2]

/-- Witness for the amended C8 at a concrete base URL, probe failure and
network. -/
theorem c8_probe_locations_amended_witness :
    sitemapLocations "https://example.com/"
      ⟨"https:".data, none, "example.com".data, none, "/".data, [], []⟩
      ⟨"https:".data, none, "example.com".data, none, "/".data, [], []⟩ =
      [⟨"https://example.com/".data ++ "sitemap.xml".data⟩,
       ⟨"https://example.com/".data ++ "sitemap_index.xml".data⟩,
       ⟨origin ⟨"https:".data, none, "example.com".data, none, "/".data, [], []⟩ ++
         "/sitemap.xml".data⟩]
    ∧ findAndParseSitemaps
        (fun x => if x = "https://example.com/sitemap.xml" then none
          else (fun _ => some ["https://example.com/a"]) x) "https://example.com/" =
      findAndParseSitemaps
        (fun x => if x = "https://example.com/sitemap.xml" then some []
          else (fun _ => some ["https://example.com/a"]) x) "https://example.com/" :=
  ⟨c8_probe_locations_amended.1 "https://example.com/"
      ⟨"https:".data, none, "example.com".data, none, "/".data, [], []⟩
      (by decide) rfl,
    c8_probe_locations_amended.2 (fun _ => some ["https://example.com/a"])
      "https://example.com/sitemap.xml" "https://example.com/"⟩

/-- A network on which every document is a sitemap index pointing back at
the same location: the pathological cycle of claim C9. -/
def cyclicNet : String → Option SitemapDoc :=
  fun _ => some (.index ["https://a/s.xml"])

/-- C9 counterexample: on the cyclic sitemap-index chain no recursion
budget ever completes — the uncapped source recursion does not
terminate on this input. -/
theorem c9_recursion_counterexample :
    ¬ SitemapTerminates cyclicNet (.index ["https://a/s.xml"]) := by
  have hall : ∀ m, parseXmlSitemapF cyclicNet m (.index ["https://a/s.xml"]) = none := by
    intro m
    induction m with
    | zero => rfl
    | succ k ih =>
      show (List.mapM (fun loc =>
        match cyclicNet loc with
        | none => some []
        | some d => parseXmlSitemapF cyclicNet k d) ["https://a/s.xml"]).map
          List.flatten = none
      have h1 : (match cyclicNet "https://a/s.xml" with
          | none => some ([] : List String)
          | some d => parseXmlSitemapF cyclicNet k d) = none := ih
      rw [List.mapM_cons, h1]
      rfl
  rintro ⟨n, hn⟩
  rw [hall n] at hn
  exact absurd hn (by simp)

theorem mapM_isSome {α β : Type} (f : α → Option β) :
    ∀ l : List α, (∀ a ∈ l, (f a).isSome = true) → (l.mapM f).isSome = true := by
  intro l
  induction l with
  | nil => intro _; rfl
  | cons a t ih =>
    intro h
    rcases hfa : f a with _ | b
    · have := h a (List.mem_cons_self a t)
      rw [hfa] at this
      exact absurd this (by simp)
    · rw [List.mapM_cons, hfa]
      rcases hmt : t.mapM f with _ | bs
      · have := ih fun x hx => h x (List.mem_cons_of_mem a hx)
        rw [hmt] at this
        exact absurd this (by simp)
      · rfl

/-- C9 (amended): the recursion is not depth-capped; it terminates
whenever the nesting bottoms out — immediately on a url-set document,
and within budget two on an index whose nested documents are not
themselves indexes — while the cyclic chain (see the counterexample)
never does. -/
theorem c9_recursion_amended :
    (∀ (net : String → Option SitemapDoc) (urls : List String) (n : Nat),
      parseXmlSitemapF net (n + 1) (.urlset urls) = some urls)
    ∧ (∀ (net : String → Option SitemapDoc) (locs : List String),
        (∀ loc d, net loc = some d → ∀ ls, d ≠ SitemapDoc.index ls) →
        (parseXmlSitemapF net 2 (.index locs)).isSome = true) := by
  constructor
  · intro net urls n
    rfl
  · intro net locs hflat
    show ((locs.mapM fun loc =>
      match net loc with
      | none => some []
      | some d => parseXmlSitemapF net 1 d).map List.flatten).isSome = true
    rcases hm : locs.mapM (fun loc =>
        match net loc with
        | none => some ([] : List String)
        | some d => parseXmlSitemapF net 1 d) with _ | res
    · have : (locs.mapM fun loc =>
          match net loc with
          | none => some ([] : List String)
          | some d => parseXmlSitemapF net 1 d).isSome = true := by
        apply mapM_isSome
        intro loc _
        rcases hnet : net loc with _ | d
        · rfl
        · rcases d with ls | us | _
          · exact absurd rfl (hflat loc (.index ls) hnet ls)
          · rfl
          · rfl
      rw [hm] at this
      exact absurd this (by simp)
    · rw [hm]
      rfl

/-- Witness for the amended C9 at a concrete flat sitemap and index. -/
theorem c9_recursion_amended_witness :
    parseXmlSitemapF (fun _ => none) 1 (.urlset ["https://a/x"]) =
      some ["https://a/x"]
    ∧ (parseXmlSitemapF (fun _ => some (.urlset ["https://a/y"])) 2
        (.index ["https://a/s1.xml"])).isSome = true :=
  ⟨c9_recursion_amended.1 (fun _ => none) ["https://a/x"] 0,
    c9_recursion_amended.2 (fun _ => some (.urlset ["https://a/y"]))
      ["https://a/s1.xml"]
      (fun loc d hd ls => by
        cases hd
        simp)⟩
